import Mathlib

/-!
Verification of the gocover parser core, a shallow embedding of
`src/pkg/parser/parser.go`.

The embedding has three layers, mirroring the file:

1. the block/statement reconciliation loop of `convertProfile`
   (lines 107-168), together with `findState` (lines 375-389) and
   `findChange` / `InFolder` (lines 391-404);
2. the error plumbing of `Parse` / `convertProfile` / `findFile`
   (lines 42-106, 171-187), with the external collaborators
   (`cover.ParseProfiles`, `build.Import`, `annotation.ParseIgnoreProfiles`,
   `go/parser`) supplied as oracle functions;
3. the statement extent extractor `StmtVisitor.VisitStmt` (lines 285-370)
   over a model of the Go statement syntax tree.

Go `int` source positions (lines, columns, byte offsets) are modelled as
`Nat`; execution counts, which the source accumulates into an `int64`, are
modelled as `Int`.  Fallible Go code is modelled with `Except`; the one
reachable runtime panic of the reconciliation loop (a nil-pointer
dereference) is modelled as `Except Unit` with `Except.error ()` standing
for the panic.
-/

namespace GoCover

/-- One profile block as decoded by `golang.org/x/tools/cover`
(`cover.ProfileBlock`: `StartLine, StartCol, EndLine, EndCol, NumStmt,
Count`). -/
structure ProfileBlock where
  startLine : Nat
  startCol : Nat
  endLine : Nat
  endCol : Nat
  numStmt : Nat
  count : Int
deriving DecidableEq

/-- The line/column part of a `StmtExtent` (parser.go lines 201-218), the
fields read by the reconciliation loop and by `findState`.  The byte
offsets of the source structure are carried separately by the extractor
model below and are not consulted by reconciliation. -/
structure StmtE where
  startLine : Nat
  startCol : Nat
  endLine : Nat
  endCol : Nat
deriving DecidableEq

/-- `Mode` of a statement: whether it counts toward reported metrics.
Modelled from the spec: the `Mode` type with values `Keep` and `Ignore`
lives in a repository file that is not part of src/. -/
inductive Mode where
  | Keep
  | Ignore
deriving DecidableEq

/-- `State` of a statement: diff classification.  Modelled from the spec:
the `State` type with values `Original` and `Changed` lives in a
repository file that is not part of src/. -/
inductive State where
  | Original
  | Changed
deriving DecidableEq

/-- Type tag of an `annotation.IgnoreProfile`.  Modelled from the spec:
the annotation package is not part of src/; the spec describes the
classification as either a file-wide ignore marker or a set of specific
profile blocks marked for ignore. -/
inductive IgnoreType where
  | BLOCK_IGNORE
  | FILE_IGNORE
deriving DecidableEq

/-- `annotation.IgnoreProfile`.  Modelled from the spec: per-file
classification, either a file-wide ignore marker or a set of profile
blocks marked for ignore (`IgnoreBlocks`, a map keyed by `ProfileBlock`
in Go, modelled as the list of its keys). -/
structure IgnoreProfile where
  typ : IgnoreType
  IgnoreBlocks : List ProfileBlock
deriving DecidableEq

/-- One diff hunk section of a `gittool.Change`.  Modelled from the spec:
the gittool package is not part of src/; a section is a contiguous line
range `{StartLine, EndLine}`. -/
structure GitSection where
  StartLine : Nat
  EndLine : Nat
deriving DecidableEq

/-- A `gittool.Change`: the diff hunks of one file.  Modelled from the
spec: `{FileName, Sections}`. -/
structure Change where
  FileName : String
  Sections : List GitSection
deriving DecidableEq

/-- The final per-statement record built by `convertProfile`
(`Statement` plus the effect of the reconciliation loop): line range,
summed `Reached` count, `Mode` and `State`.  The `Statement` type itself
lives outside src/; its fields here are exactly the ones parser.go
assigns (lines 117-128, 141-142, 157, 161). -/
structure StatementR where
  startLine : Nat
  endLine : Nat
  reached : Int
  mode : Mode
  state : State
deriving DecidableEq

/-- Condition of parser.go line 148: block `b` starts past the end of
statement `s` (`b.StartLine > s.endLine || (b.StartLine == s.endLine &&
b.StartCol >= s.endCol)`). -/
def pastEnd (b : ProfileBlock) (s : StmtE) : Prop :=
  b.startLine > s.endLine ∨ (b.startLine = s.endLine ∧ b.startCol ≥ s.endCol)

instance (b : ProfileBlock) (s : StmtE) : Decidable (pastEnd b s) := by
  unfold pastEnd; infer_instance

/-- Condition of parser.go line 153: block `b` ends before the beginning
of statement `s` (`b.EndLine < s.startLine || (b.EndLine == s.startLine
&& b.EndCol <= s.startCol)`). -/
def beforeStmt (b : ProfileBlock) (s : StmtE) : Prop :=
  b.endLine < s.startLine ∨ (b.endLine = s.startLine ∧ b.endCol ≤ s.startCol)

instance (b : ProfileBlock) (s : StmtE) : Decidable (beforeStmt b s) := by
  unfold beforeStmt; infer_instance

/-- A block overlaps a statement exactly when the loop of parser.go lines
147-166 reaches line 157 for it: it neither starts past the end of the
statement nor ends before its beginning. -/
def overlaps (b : ProfileBlock) (s : StmtE) : Prop :=
  ¬ pastEnd b s ∧ ¬ beforeStmt b s

instance (b : ProfileBlock) (s : StmtE) : Decidable (overlaps b s) := by
  unfold overlaps; infer_instance

/-- The inner loop of parser.go lines 147-166 for a single statement:
scan the current block cursor, returning `(trim?, inc, ignoreHit)` where
`trim?` is `some rest` when the loop executed `blocks = blocks[i:]`
(first block past the end of the statement) and `none` when the cursor
is left unchanged, `inc` is the amount added to `s.Reached` (the count
of the first overlapping block, the loop breaks at line 165 right after
adding it), and `ignoreHit` records whether that block is in the ignore
set.  When `ign` is `none` (a nil `*IgnoreProfile`) and an overlapping
block is found, line 160 dereferences the nil pointer: modelled as
`Except.error ()`. -/
def scanStmt (ign : Option IgnoreProfile) (s : StmtE) :
    List ProfileBlock → Except Unit (Option (List ProfileBlock) × Int × Bool)
  | [] => .ok (none, 0, false)
  | b :: bs =>
    if pastEnd b s then
      -- Past the end of the statement: `blocks = blocks[i:]; break`
      .ok (some (b :: bs), 0, false)
    else if beforeStmt b s then
      -- Before the beginning of the statement: `continue`
      scanStmt ign s bs
    else
      match ign with
      | none => .error ()  -- `ignoreProfile.IgnoreBlocks` on a nil pointer
      | some ip => .ok (none, b.count, decide (b ∈ ip.IgnoreBlocks))

/-- `findState` (parser.go lines 375-389): walk the change sections; if
any line of a section falls inside the statement line range, the
statement is `Changed`, otherwise `Original`.  A nil change yields
`Original`.  The inner Go loop `for i := s.StartLine; i <= s.EndLine;
i++` is modelled by `List.range'` of the same index set. -/
def findState (stmt : StmtE) (change : Option Change) : State :=
  match change with
  | none => .Original
  | some c =>
    if c.Sections.any (fun sec =>
        (List.range' sec.StartLine (sec.EndLine + 1 - sec.StartLine)).any
          (fun i => decide (stmt.startLine ≤ i) && decide (stmt.endLine ≥ i)))
    then .Changed else .Original

/-- The guard of parser.go line 140: `ignoreProfile != nil &&
ignoreProfile.Type == annotation.FILE_IGNORE`.  The nil check guards
only this branch. -/
def fileIgnoreHit (ign : Option IgnoreProfile) : Prop :=
  match ign with
  | some ip => ip.typ = .FILE_IGNORE
  | none => False

instance (ign : Option IgnoreProfile) : Decidable (fileIgnoreHit ign) := by
  unfold fileIgnoreHit
  match ign with
  | some ip => infer_instance
  | none => infer_instance

/-- The statement construction and reconciliation of `convertProfile`
(parser.go lines 107-168) restricted to its observable effect on the
statement records of one file.  The source first builds every
`Statement` with `Mode = Keep` and `State = findState(se, change)`
(lines 117-131) and then runs the matching loop (lines 136-167) over the
same records; since the loop touches only `Reached` and `Mode` and
handles the statements in the order they were built, the two passes are
fused here into one pass that produces each final record.  The block
cursor `blocks` is threaded across statements exactly as in the source:
it is replaced only when `scanStmt` reports a trim. -/
def convertStatements (ign : Option IgnoreProfile) (change : Option Change) :
    List StmtE → List ProfileBlock → Except Unit (List StatementR)
  | [], _ => .ok []
  | s :: ss, blocks =>
    if fileIgnoreHit ign then
      match convertStatements ign change ss blocks with
      | .error e => .error e
      | .ok rest =>
        .ok ({ startLine := s.startLine, endLine := s.endLine,
               reached := 1, mode := .Ignore,
               state := findState s change } :: rest)
    else
      match scanStmt ign s blocks with
      | .error e => .error e
      | .ok (trim?, inc, ignoreHit) =>
        match convertStatements ign change ss (trim?.getD blocks) with
        | .error e => .error e
        | .ok rest =>
          .ok ({ startLine := s.startLine, endLine := s.endLine,
                 reached := 0 + inc,
                 mode := if ignoreHit then .Ignore else .Keep,
                 state := findState s change } :: rest)

/-- The sum of `Count` over exactly the profile blocks whose span
overlaps the statement span: the quantity the spec asserts for
`reached`. -/
def overlapSum (s : StmtE) (blocks : List ProfileBlock) : Int :=
  ((blocks.filter (fun b => decide (overlaps b s))).map (fun b => b.count)).sum

/-- Lexicographic order on (line, column) positions. -/
def posLe (l1 c1 l2 c2 : Nat) : Prop :=
  l1 < l2 ∨ (l1 = l2 ∧ c1 ≤ c2)

instance (l1 c1 l2 c2 : Nat) : Decidable (posLe l1 c1 l2 c2) := by
  unfold posLe; infer_instance

/-- Block order by start position, the order the coverage profile format
guarantees for the blocks of one file. -/
def blockLe (b b' : ProfileBlock) : Prop :=
  posLe b.startLine b.startCol b'.startLine b'.startCol

instance (b b' : ProfileBlock) : Decidable (blockLe b b') := by
  unfold blockLe; infer_instance

/-- Statement order by start position, the document order the extractor
produces. -/
def stmtLe (s s' : StmtE) : Prop :=
  posLe s.startLine s.startCol s'.startLine s'.startCol

instance (s s' : StmtE) : Decidable (stmtLe s s') := by
  unfold stmtLe; infer_instance

/-- Blocks sorted by start position. -/
def sortedBlocks (blocks : List ProfileBlock) : Prop :=
  List.Pairwise blockLe blocks

/-- Statements sorted by start position. -/
def sortedStmts (stmts : List StmtE) : Prop :=
  List.Pairwise stmtLe stmts

/-- `InFolder` (parser.go lines 401-404): `strings.HasSuffix(parentDir,
filepath)`, i.e. the char sequence of `filepath` is a suffix of the char
sequence of `parentDir`. -/
def InFolder (parentDir fp : String) : Bool :=
  List.isSuffixOf fp.data parentDir.data

/-- A profile entry as produced by `cover.ParseProfiles`: file name plus
its ordered block list (`cover.Profile`; the `Mode` field is never read
by parser.go and is omitted). -/
structure ProfileEntry where
  FileName : String
  Blocks : List ProfileBlock
deriving DecidableEq

/-- `findChange` (parser.go lines 392-399): the first change whose file
name is a suffix of the profile file name, if any. -/
def findChange (profile : ProfileEntry) (changes : List Change) : Option Change :=
  match changes with
  | [] => none
  | c :: cs =>
    if InFolder profile.FileName c.FileName then some c
    else findChange profile cs

/-- Kinds of errors the external collaborators can produce, from the
spec error taxonomy: resolution, source parse, profile format,
annotation. -/
inductive ErrKind where
  | ResolutionError
  | ParseError
  | ProfileFormatError
  | AnnotationError
deriving DecidableEq

/-- A Go error value as parser.go builds them: an underlying error from a
collaborator (`base`), `fmt.Errorf("tag: %w", err)` which wraps and keeps
the cause (`wrapf`), or `fmt.Errorf("tag")` which carries no cause
(`msgf`). -/
inductive GoError where
  | base (kind : ErrKind)
  | wrapf (tag : String) (cause : GoError)
  | msgf (tag : String)
deriving DecidableEq

/-- Whether unwrapping the error chain (as `errors.Is` / `errors.As`
would) reaches an underlying error of the given kind. -/
def carries : GoError → ErrKind → Bool
  | .base k, k' => k == k'
  | .wrapf _ c, k' => carries c k'
  | .msgf _, _ => false

/-- A function extent as returned by `findFuncs` (parser.go lines
189-215), restricted to the fields `convertProfile` reads: name, line
range and the ordered statement extents. -/
structure FuncExtentM where
  name : String
  startLine : Nat
  endLine : Nat
  stmts : List StmtE
deriving DecidableEq

/-- A `Function` of the output model with its final statements.
Modelled from the spec: the `Function` type lives in a repository file
that is not part of src/; its fields are the ones `convertProfile`
assigns (parser.go lines 109-116, 129). -/
structure FunctionR where
  Name : String
  File : String
  StartLine : Nat
  EndLine : Nat
  Statements : List StatementR
deriving DecidableEq

/-- A `Package` of the output model.  Modelled from the spec: `{Name,
Functions}`. -/
structure PackageR where
  Name : String
  Functions : List FunctionR
deriving DecidableEq

/-- The external collaborators consumed by `Parse`, as oracle functions:
`cover.ParseProfiles`, `build.Import` (the fallible core of `findFile`),
`annotation.ParseIgnoreProfiles` (which may legitimately return a nil
`*IgnoreProfile`, hence the `Option`), and the `go/parser` based
`findFuncs`. -/
structure Env where
  parseProfiles : String → Except GoError (List ProfileEntry)
  buildImport : String → Except GoError (String × String)
  parseIgnoreProfiles : String → ProfileEntry → Except GoError (Option IgnoreProfile)
  findFuncs : String → Except GoError (List FuncExtentM)

/-- `findFile` (parser.go lines 172-187): resolve the profile path via
`build.Import`, wrapping a failure as `fmt.Errorf("can't find %q: %w",
file, err)`; the apostrophe-free tag `"cant find"` stands for that
message.  The directory-level cache and the path splitting affect only
which concrete path is returned, not the error structure, and are folded
into the `buildImport` oracle. -/
def findFileM (env : Env) (fileName : String) : Except GoError (String × String) :=
  match env.buildImport fileName with
  | .error e => .error (.wrapf "cant find" e)
  | .ok res => .ok res

/-- Distribute the reconciled statement records back onto the functions
they came from (parser.go lines 108-133 collect `fe.stmts` function by
function into one flat slice whose entries alias the per-function
`Statements`; splitting the flat result list by the per-function counts
reproduces exactly that sharing). -/
def buildFunctions (file : String) :
    List FuncExtentM → List StatementR → List FunctionR
  | [], _ => []
  | fe :: rest, rs =>
    { Name := fe.name, File := file, StartLine := fe.startLine,
      EndLine := fe.endLine, Statements := rs.take fe.stmts.length } ::
    buildFunctions file rest (rs.drop fe.stmts.length)

/-- Outcome of a call that can also terminate the process with a runtime
panic (the nil-pointer dereference of parser.go line 160): either a
value, an error return, or a panic that produces neither. -/
inductive Outcome (α : Type) where
  | ok (val : α)
  | fail (err : GoError)
  | panicked
deriving DecidableEq

/-- `convertProfile` (parser.go lines 75-169) for one profile entry:
resolve the file (stage tag `"find file"`), parse the ignore annotations
(on failure the source builds `fmt.Errorf("parse ignore profile")`,
dropping the underlying error), extract the function extents (stage tag
`"find Functions"`), then build and reconcile the statements of all
functions of the file against the entry blocks.  The insertion of the
`Package` into the parser map happens before the fallible stages have
all run in the source, but that map is internal state that `Parse`
discards on error, so it is threaded by the caller only on success. -/
def convertProfileM (env : Env) (p : ProfileEntry) (change : Option Change) :
    Outcome (String × List FunctionR) :=
  match findFileM env p.FileName with
  | .error err => .fail (.wrapf "find file" err)
  | .ok (file, pkgpath) =>
    match env.parseIgnoreProfiles file p with
    | .error _ => .fail (.msgf "parse ignore profile")
    | .ok ignoreProfile =>
      match env.findFuncs file with
      | .error err => .fail (.wrapf "find Functions" err)
      | .ok extents =>
        match convertStatements ignoreProfile change
            (extents.flatMap (fun fe => fe.stmts)) p.Blocks with
        | .error _ => .panicked
        | .ok rs => .ok (pkgpath, buildFunctions file extents rs)

/-- Insert the functions of one converted profile entry into the
package map (parser.go lines 84-88 and 132: create the package on first
sight of its import path, append the functions). -/
def insertPkg (pkgs : List (String × List FunctionR)) (path : String)
    (funcs : List FunctionR) : List (String × List FunctionR) :=
  match pkgs with
  | [] => [(path, funcs)]
  | (q, fs) :: rest =>
    if q = path then (q, fs ++ funcs) :: rest
    else (q, fs) :: insertPkg rest path funcs

/-- The inner loop of `Parse` (parser.go lines 53-59): convert each
profile entry, wrapping any convertProfile error as
`fmt.Errorf("covert cover profile: %w", err)` and aborting at the first
failure. -/
def processEntries (env : Env) (changes : List Change) :
    List ProfileEntry → List (String × List FunctionR) →
    Outcome (List (String × List FunctionR))
  | [], pkgs => .ok pkgs
  | p :: ps, pkgs =>
    match convertProfileM env p (findChange p changes) with
    | .fail e => .fail (.wrapf "covert cover profile" e)
    | .panicked => .panicked
    | .ok (pkgpath, funcs) =>
      processEntries env changes ps (insertPkg pkgs pkgpath funcs)

/-- The outer loop of `Parse` (parser.go lines 45-64): parse each cover
profile file (failure wrapped as `fmt.Errorf("parse cover profile: %w",
err)`), convert its entries, and after each file append every package
accumulated so far to the result (the duplicate-insertion behaviour the
spec design notes point out is preserved). -/
def parseLoop (env : Env) (changes : List Change) :
    List String → List (String × List FunctionR) → List PackageR →
    Outcome (List PackageR)
  | [], _, result => .ok result
  | f :: fs, pkgs, result =>
    match env.parseProfiles f with
    | .error e => .fail (.wrapf "parse cover profile" e)
    | .ok entries =>
      match processEntries env changes entries pkgs with
      | .fail e => .fail e
      | .panicked => .panicked
      | .ok pkgs2 =>
        parseLoop env changes fs pkgs2
          (result ++ pkgs2.map (fun pr => { Name := pr.1, Functions := pr.2 }))

/-- `Parse` (parser.go lines 42-67): either the fully populated package
model or the first fatal error; `Outcome.fail` carries no model, exactly
as the source returns `nil` alongside every error. -/
def ParseM (env : Env) (coverProfileFiles : List String)
    (changes : List Change) : Outcome (List PackageR) :=
  parseLoop env changes coverProfileFiles [] []

/-- The Go statement syntax tree, restricted to the shapes
`StmtVisitor.VisitStmt` (parser.go lines 290-370) distinguishes.  Every
node carries its `Pos()` and `End()` byte offsets; for a block the start
offset is its `Lbrace` (the field the else special case mutates).  All
other statement forms (assignments, expression statements, returns,
declarations, go/defer, branch statements, ...) fall into the visitor
default arm and are collapsed into `simple`. -/
inductive GoStmt : Type where
  | simple (sp : Nat) (ep : Nat)
  | block (lbrace : Nat) (list : List GoStmt) (ep : Nat)
  | caseClause (sp : Nat) (body : List GoStmt) (ep : Nat)
  | commClause (sp : Nat) (body : List GoStmt) (ep : Nat)
  | forS (sp : Nat) (ini : Option GoStmt) (post : Option GoStmt) (body : GoStmt) (ep : Nat)
  | ifS (sp : Nat) (ini : Option GoStmt) (body : GoStmt) (els : Option GoStmt) (ep : Nat)
  | labeled (sp : Nat) (inner : GoStmt) (ep : Nat)
  | rangeS (sp : Nat) (body : GoStmt) (ep : Nat)
  | selectS (sp : Nat) (body : GoStmt) (ep : Nat)
  | switchS (sp : Nat) (ini : Option GoStmt) (body : GoStmt) (ep : Nat)
  | typeSwitchS (sp : Nat) (ini : Option GoStmt) (assign : GoStmt) (body : GoStmt) (ep : Nat)

/-- `Pos()` of a statement node (for a block: its `Lbrace`). -/
def posS : GoStmt → Nat
  | .simple sp _ => sp
  | .block lb _ _ => lb
  | .caseClause sp _ _ => sp
  | .commClause sp _ _ => sp
  | .forS sp _ _ _ _ => sp
  | .ifS sp _ _ _ _ => sp
  | .labeled sp _ _ => sp
  | .rangeS sp _ _ => sp
  | .selectS sp _ _ => sp
  | .switchS sp _ _ _ => sp
  | .typeSwitchS sp _ _ _ _ => sp

/-- `End()` of a statement node. -/
def endS : GoStmt → Nat
  | .simple _ ep => ep
  | .block _ _ ep => ep
  | .caseClause _ _ ep => ep
  | .commClause _ _ ep => ep
  | .forS _ _ _ _ ep => ep
  | .ifS _ _ _ _ ep => ep
  | .labeled _ _ ep => ep
  | .rangeS _ _ ep => ep
  | .selectS _ _ ep => ep
  | .switchS _ _ _ ep => ep
  | .typeSwitchS _ _ _ _ ep => ep

/-- A recorded statement extent: start and end byte offset (parser.go
lines 357-365 also store line and column, which grow monotonically with
the offset inside one file and are elided here). -/
structure SExtent where
  s : Nat
  e : Nat
deriving DecidableEq

/-- The statement shapes the recording loop of parser.go lines 351-367
skips (`case *ast.CaseClause, *ast.CommClause, *ast.BlockStmt: break`):
every other list member gets its own extent recorded. -/
def skipRecord : GoStmt → Bool
  | .block _ _ _ => true
  | .caseClause _ _ _ => true
  | .commClause _ _ _ => true
  | _ => false

/-- The control-construct statement shapes (loop, conditional, switch,
select) named by the spec sentence behind claim C2. -/
def isControl : GoStmt → Bool
  | .forS _ _ _ _ _ => true
  | .ifS _ _ _ _ _ => true
  | .rangeS _ _ _ => true
  | .selectS _ _ _ => true
  | .switchS _ _ _ _ => true
  | .typeSwitchS _ _ _ _ _ => true
  | _ => false

mutual

/-- `StmtVisitor.VisitStmt` (parser.go lines 290-370): the list of
statement extents appended to the enclosing function, in order.  Only
the three compound shapes expose a statement list; the control shapes
recurse into their parts; everything else is a no-op at this level
(extents are recorded exclusively for members of an exposed list, by
`visitList`). -/
def visitStmt : GoStmt → List SExtent
  | .simple _ _ => []
  | .block _ l _ => visitList l
  | .caseClause _ body _ => visitList body
  | .commClause _ body _ => visitList body
  | .forS _ ini post body _ => visitOpt ini ++ visitOpt post ++ visitStmt body
  | .ifS _ ini body els _ => visitOpt ini ++ visitStmt body ++ visitElse els
  | .labeled _ inner _ => visitStmt inner
  | .rangeS _ body _ => visitStmt body
  | .selectS _ body _ => visitStmt body
  | .switchS _ ini body _ => visitOpt ini ++ visitStmt body
  | .typeSwitchS _ ini assign body _ =>
    visitOpt ini ++ visitStmt assign ++ visitStmt body

/-- `if s.Init != nil { v.VisitStmt(s.Init) }` and the like. -/
def visitOpt : Option GoStmt → List SExtent
  | none => []
  | some s => visitStmt s

/-- The else special case of parser.go lines 312-328.  For an `else if`,
the source wraps the nested if into a synthesized `ast.BlockStmt` with
`Lbrace = stmt.If - len("else ")` and visits that block: the visit
records the nested if (a list member that is not skipped) at the nested
if's own `Pos()` and recurses into it; the synthesized `Lbrace` is never
read, because `VisitStmt` on a block touches only its `List`.  For a
plain block the source decrements its `Lbrace` by the same offset and
visits it, which again only walks its member list.  Any other node shape
panics in the source (`panic("unexpected node type in if")`, modelled by
`hitsPanic` below); this function describes the extents of the
non-panicking executions. -/
def visitElse : Option GoStmt → List SExtent
  | none => []
  | some (.ifS sp ini body els ep) =>
    { s := sp, e := ep } :: visitStmt (.ifS sp ini body els ep)
  | some (.block _ l _) => visitList l
  | some _ => []

/-- The recording loop of parser.go lines 351-369 over an exposed
statement list: each member that is not a block or clause gets its own
whole extent recorded, then the visitor recurses into the member. -/
def visitList : List GoStmt → List SExtent
  | [] => []
  | c :: cs =>
    (if skipRecord c then [] else [{ s := posS c, e := endS c }]) ++
    visitStmt c ++ visitList cs

end

mutual

/-- Whether running `VisitStmt` on this statement reaches the
`panic("unexpected node type in if")` of parser.go line 326: some
visited if-statement has a non-nil `Else` that is neither an if nor a
block. -/
def hitsPanic : GoStmt → Bool
  | .simple _ _ => false
  | .block _ l _ => hitsPanicList l
  | .caseClause _ body _ => hitsPanicList body
  | .commClause _ body _ => hitsPanicList body
  | .forS _ ini post body _ =>
    hitsPanicOpt ini || hitsPanicOpt post || hitsPanic body
  | .ifS _ ini body els _ =>
    hitsPanicOpt ini || hitsPanic body || hitsPanicElse els
  | .labeled _ inner _ => hitsPanic inner
  | .rangeS _ body _ => hitsPanic body
  | .selectS _ body _ => hitsPanic body
  | .switchS _ ini body _ => hitsPanicOpt ini || hitsPanic body
  | .typeSwitchS _ ini assign body _ =>
    hitsPanicOpt ini || hitsPanic assign || hitsPanic body

/-- Panic reachability through an optional sub-statement. -/
def hitsPanicOpt : Option GoStmt → Bool
  | none => false
  | some s => hitsPanic s

/-- Panic reachability through an `Else` field: a shape that is neither
an if nor a block panics immediately. -/
def hitsPanicElse : Option GoStmt → Bool
  | none => false
  | some (.ifS sp ini body els ep) => hitsPanic (.ifS sp ini body els ep)
  | some (.block _ l _) => hitsPanicList l
  | some _ => true

/-- Panic reachability through a statement list. -/
def hitsPanicList : List GoStmt → Bool
  | [] => false
  | c :: cs => hitsPanic c || hitsPanicList cs

end

/-- The shape the Go grammar guarantees for the `Else` field of an
if-statement: absent, another if-statement, or a block. -/
def elseShapeOk : Option GoStmt → Bool
  | none => true
  | some (.ifS _ _ _ _ _) => true
  | some (.block _ _ _) => true
  | some _ => false

mutual

/-- The grammar invariant of trees produced by `go/parser`: every
if-statement anywhere in the tree has an `Else` that is absent, an
if-statement, or a block. -/
def elseOk : GoStmt → Bool
  | .simple _ _ => true
  | .block _ l _ => elseOkList l
  | .caseClause _ body _ => elseOkList body
  | .commClause _ body _ => elseOkList body
  | .forS _ ini post body _ => elseOkOpt ini && elseOkOpt post && elseOk body
  | .ifS _ ini body els _ =>
    elseOkOpt ini && elseOk body && elseShapeOk els && elseOkOpt els
  | .labeled _ inner _ => elseOk inner
  | .rangeS _ body _ => elseOk body
  | .selectS _ body _ => elseOk body
  | .switchS _ ini body _ => elseOkOpt ini && elseOk body
  | .typeSwitchS _ ini assign body _ =>
    elseOkOpt ini && elseOk assign && elseOk body

/-- Grammar invariant through an optional sub-statement. -/
def elseOkOpt : Option GoStmt → Bool
  | none => true
  | some s => elseOk s

/-- Grammar invariant through a statement list. -/
def elseOkList : List GoStmt → Bool
  | [] => true
  | c :: cs => elseOk c && elseOkList cs

end

/-- Whether a statement is one of the simple statement forms the Go
grammar allows as a `for`/`if`/`switch` initializer, a `for` post
statement, or a type-switch assign. -/
def isSimpleStmt : GoStmt → Bool
  | .simple _ _ => true
  | _ => false

/-- Grammar restriction for optional initializer slots. -/
def optSimple : Option GoStmt → Bool
  | none => true
  | some s => isSimpleStmt s

mutual

/-- Well-formedness of a statement tree, the position discipline any
tree produced by `go/parser` from a source file satisfies: every node
spans a nonempty range, children are strictly inside their parent,
consecutive members of a list occupy disjoint ranges in order, a body
starts after its construct keyword and ends within it, an else branch
starts after the then-body ends, and initializer slots hold simple
statements as the grammar requires. -/
def wfB : GoStmt → Bool
  | .simple sp ep => decide (sp < ep)
  | .block lb l ep => decide (lb < ep) && wfSeq lb l ep
  | .caseClause sp body ep => decide (sp < ep) && wfSeq sp body ep
  | .commClause sp body ep => decide (sp < ep) && wfSeq sp body ep
  | .forS sp ini post body ep =>
    decide (sp < ep) && optSimple ini && optSimple post && wfB body &&
    decide (sp < posS body) && decide (endS body ≤ ep)
  | .ifS sp ini body els ep =>
    decide (sp < ep) && optSimple ini && wfB body && decide (sp < posS body) &&
    (match els with
     | none => decide (endS body ≤ ep)
     | some es => decide (endS body ≤ posS es) && wfB es && decide (endS es ≤ ep))
  | .labeled sp inner ep =>
    decide (sp < ep) && wfB inner && decide (sp < posS inner) &&
    decide (endS inner ≤ ep)
  | .rangeS sp body ep =>
    decide (sp < ep) && wfB body && decide (sp < posS body) &&
    decide (endS body ≤ ep)
  | .selectS sp body ep =>
    decide (sp < ep) && wfB body && decide (sp < posS body) &&
    decide (endS body ≤ ep)
  | .switchS sp ini body ep =>
    decide (sp < ep) && optSimple ini && wfB body && decide (sp < posS body) &&
    decide (endS body ≤ ep)
  | .typeSwitchS sp ini assign body ep =>
    decide (sp < ep) && optSimple ini && isSimpleStmt assign && wfB body &&
    decide (sp < posS body) && decide (endS body ≤ ep)

/-- Well-formedness of a statement list spanning the open interval
`(lo, hi)`: members are well formed, strictly ordered, and inside the
interval. -/
def wfSeq : Nat → List GoStmt → Nat → Bool
  | lo, [], hi => decide (lo ≤ hi)
  | lo, c :: cs, hi => decide (lo < posS c) && wfB c && wfSeq (endS c) cs hi

end

/-- A fixed profile entry used by the concrete oracle environments
below. -/
def profEntry0 : ProfileEntry := { FileName := "repo/pkg/a.go", Blocks := [] }

/-- Oracle environment in which decoding the cover profile file fails. -/
def envProfileFail : Env where
  parseProfiles := fun _ => .error (.base .ProfileFormatError)
  buildImport := fun _ => .ok ("/src/repo/pkg/a.go", "repo/pkg")
  parseIgnoreProfiles := fun _ _ => .ok none
  findFuncs := fun _ => .ok []

/-- Oracle environment in which resolving the profile path fails. -/
def envResolveFail : Env where
  parseProfiles := fun _ => .ok [profEntry0]
  buildImport := fun _ => .error (.base .ResolutionError)
  parseIgnoreProfiles := fun _ _ => .ok none
  findFuncs := fun _ => .ok []

/-- Oracle environment in which parsing the ignore annotations fails. -/
def envAnnotationFail : Env where
  parseProfiles := fun _ => .ok [profEntry0]
  buildImport := fun _ => .ok ("/src/repo/pkg/a.go", "repo/pkg")
  parseIgnoreProfiles := fun _ _ => .error (.base .AnnotationError)
  findFuncs := fun _ => .ok []

/-- Oracle environment in which extracting the function extents fails. -/
def envFuncsFail : Env where
  parseProfiles := fun _ => .ok [profEntry0]
  buildImport := fun _ => .ok ("/src/repo/pkg/a.go", "repo/pkg")
  parseIgnoreProfiles := fun _ _ => .ok none
  findFuncs := fun _ => .error (.base .ParseError)

/-! ### Helper lemmas about the reconciliation predicates -/

theorem posLe_trans {l1 c1 l2 c2 l3 c3 : Nat} (h1 : posLe l1 c1 l2 c2)
    (h2 : posLe l2 c2 l3 c3) : posLe l1 c1 l3 c3 := by
  unfold posLe at *; omega

theorem pastEnd_mono {b b' : ProfileBlock} {s : StmtE} (h : pastEnd b s)
    (hle : blockLe b b') : pastEnd b' s := by
  unfold pastEnd blockLe posLe at *; omega

theorem beforeStmt_mono {b : ProfileBlock} {s s' : StmtE} (h : beforeStmt b s)
    (hle : stmtLe s s') : beforeStmt b s' := by
  unfold beforeStmt stmtLe posLe at *; omega

theorem not_overlaps_of_pastEnd {b : ProfileBlock} {s : StmtE}
    (h : pastEnd b s) : ¬ overlaps b s := fun ho => ho.1 h

theorem not_overlaps_of_beforeStmt {b : ProfileBlock} {s : StmtE}
    (h : beforeStmt b s) : ¬ overlaps b s := fun ho => ho.2 h

/-! ### Helper lemmas about the inner matching loop `scanStmt` -/

theorem scanStmt_some_ok (ip : IgnoreProfile) (s : StmtE) :
    ∀ c : List ProfileBlock, ∃ out, scanStmt (some ip) s c = .ok out := by
  intro c
  induction c with
  | nil => exact ⟨_, rfl⟩
  | cons b bs ih =>
    by_cases h1 : pastEnd b s
    · exact ⟨(some (b :: bs), 0, false), by simp [scanStmt, h1]⟩
    · by_cases h2 : beforeStmt b s
      · obtain ⟨out, hout⟩ := ih
        exact ⟨out, by simp [scanStmt, h1, h2, hout]⟩
      · exact ⟨(none, b.count, decide (b ∈ ip.IgnoreBlocks)),
          by simp [scanStmt, h1, h2]⟩

theorem scanStmt_trim (ign : Option IgnoreProfile) (s : StmtE) :
    ∀ (c t : List ProfileBlock) (inc : Int) (ig : Bool),
      scanStmt ign s c = .ok (some t, inc, ig) →
      ∃ d, c = d ++ t ∧ ∀ b ∈ d, beforeStmt b s := by
  intro c
  induction c with
  | nil => intro t inc ig h; simp [scanStmt] at h
  | cons b bs ih =>
    intro t inc ig h
    by_cases h1 : pastEnd b s
    · simp [scanStmt, h1] at h
      exact ⟨[], by simp [h.1], by simp⟩
    · by_cases h2 : beforeStmt b s
      · simp only [scanStmt, if_neg h1, if_pos h2] at h
        obtain ⟨d, hd, hdb⟩ := ih t inc ig h
        refine ⟨b :: d, by simp [hd], ?_⟩
        intro x hx
        rcases List.mem_cons.mp hx with rfl | hx
        · exact h2
        · exact hdb x hx
      · cases ign with
        | none => simp [scanStmt, h1, h2] at h
        | some ip => simp [scanStmt, h1, h2] at h

theorem overlapSum_nil (s : StmtE) : overlapSum s [] = 0 := rfl

theorem overlapSum_cons_not {b : ProfileBlock} {s : StmtE} (bs : List ProfileBlock)
    (h : ¬ overlaps b s) : overlapSum s (b :: bs) = overlapSum s bs := by
  simp [overlapSum, List.filter_cons, h]

theorem overlapSum_cons_yes {b : ProfileBlock} {s : StmtE} (bs : List ProfileBlock)
    (h : overlaps b s) : overlapSum s (b :: bs) = b.count + overlapSum s bs := by
  simp [overlapSum, List.filter_cons, h]

theorem overlapSum_eq_zero_of_all_pastEnd {s : StmtE} {c : List ProfileBlock}
    (h : ∀ b ∈ c, pastEnd b s) : overlapSum s c = 0 := by
  have : c.filter (fun b => decide (overlaps b s)) = [] := by
    rw [List.filter_eq_nil_iff]
    intro b hb
    simpa using not_overlaps_of_pastEnd (h b hb)
  simp [overlapSum, this]

theorem scanStmt_inc (ip : IgnoreProfile) (s : StmtE) :
    ∀ (c : List ProfileBlock) (trim? : Option (List ProfileBlock)) (inc : Int) (ig : Bool),
      sortedBlocks c →
      (c.filter (fun b => decide (overlaps b s))).length ≤ 1 →
      scanStmt (some ip) s c = .ok (trim?, inc, ig) →
      inc = overlapSum s c := by
  intro c
  induction c with
  | nil => intro t inc ig _ _ h; simp [scanStmt] at h; simp [h.2.1, overlapSum_nil]
  | cons b bs ih =>
    intro t inc ig hsort huniq h
    by_cases h1 : pastEnd b s
    · simp [scanStmt, h1] at h
      have hall : ∀ b' ∈ b :: bs, pastEnd b' s := by
        intro b' hb'
        rcases List.mem_cons.mp hb' with rfl | hb'
        · exact h1
        · exact pastEnd_mono h1 ((List.pairwise_cons.mp hsort).1 b' hb')
      rw [overlapSum_eq_zero_of_all_pastEnd hall]
      exact h.2.1.symm
    · by_cases h2 : beforeStmt b s
      · simp only [scanStmt, if_neg h1, if_pos h2] at h
        rw [overlapSum_cons_not bs (not_overlaps_of_beforeStmt h2)]
        have huniq' : (bs.filter (fun b => decide (overlaps b s))).length ≤ 1 := by
          simpa [List.filter_cons, not_overlaps_of_beforeStmt h2] using huniq
        exact ih t inc ig (List.Pairwise.of_cons hsort) huniq' h
      · have hov : overlaps b s := ⟨h1, h2⟩
        simp [scanStmt, h1, h2] at h
        rw [overlapSum_cons_yes bs hov]
        simp [List.filter_cons, hov, List.length_eq_zero] at huniq
        have hfil : bs.filter (fun b => decide (overlaps b s)) = [] := by
          rw [List.filter_eq_nil_iff]
          intro a ha
          simpa using huniq a ha
        have hsum : overlapSum s bs = 0 := by simp [overlapSum, hfil]
        rw [hsum, ← h.2.1]
        ring

theorem scanStmt_none_no_overlap (s : StmtE) :
    ∀ (c : List ProfileBlock) out, sortedBlocks c →
      scanStmt none s c = .ok out → ∀ b ∈ c, ¬ overlaps b s := by
  intro c
  induction c with
  | nil => intro out _ _ b hb; simp at hb
  | cons b bs ih =>
    intro out hsort h b' hb'
    by_cases h1 : pastEnd b s
    · have hall : pastEnd b' s := by
        rcases List.mem_cons.mp hb' with rfl | hb'
        · exact h1
        · exact pastEnd_mono h1 ((List.pairwise_cons.mp hsort).1 b' hb')
      exact not_overlaps_of_pastEnd hall
    · by_cases h2 : beforeStmt b s
      · simp only [scanStmt, if_neg h1, if_pos h2] at h
        rcases List.mem_cons.mp hb' with rfl | hb'
        · exact not_overlaps_of_beforeStmt h2
        · exact ih out (List.Pairwise.of_cons hsort) h b' hb'
      · simp [scanStmt, h1, h2] at h

/-! ### Helper lemmas about the outer reconciliation loop -/

theorem convertStatements_some_ok (ip : IgnoreProfile) (change : Option Change) :
    ∀ (stmts : List StmtE) (blocks : List ProfileBlock),
      ∃ rs, convertStatements (some ip) change stmts blocks = .ok rs := by
  intro stmts
  induction stmts with
  | nil => intro blocks; exact ⟨[], rfl⟩
  | cons s ss ih =>
    intro blocks
    cases hres : convertStatements (some ip) change (s :: ss) blocks with
    | ok rs => exact ⟨rs, rfl⟩
    | error e =>
      exfalso
      by_cases hfi : fileIgnoreHit (some ip)
      · obtain ⟨rs, hrs⟩ := ih blocks
        simp [convertStatements, hfi, hrs] at hres
      · obtain ⟨⟨trim?, inc, ig⟩, hscan⟩ := scanStmt_some_ok ip s blocks
        obtain ⟨rs, hrs⟩ := ih (trim?.getD blocks)
        simp [convertStatements, hfi, hscan, hrs] at hres

theorem convertStatements_sum_aux (ip : IgnoreProfile)
    (hip : ip.typ ≠ IgnoreType.FILE_IGNORE) (change : Option Change) :
    ∀ (stmts : List StmtE) (orig dropped cursor : List ProfileBlock),
      orig = dropped ++ cursor →
      (∀ b ∈ dropped, ∀ s ∈ stmts, beforeStmt b s) →
      sortedBlocks orig → sortedStmts stmts →
      (∀ s ∈ stmts, (orig.filter (fun b => decide (overlaps b s))).length ≤ 1) →
      ∃ rs, convertStatements (some ip) change stmts cursor = .ok rs ∧
        List.Forall₂ (fun s r => r.reached = overlapSum s orig) stmts rs := by
  intro stmts
  induction stmts with
  | nil =>
    intro orig dropped cursor _ _ _ _ _
    exact ⟨[], rfl, List.Forall₂.nil⟩
  | cons s ss ih =>
    intro orig dropped cursor horig hdrop hsortb hsorts huniq
    have hfi : ¬ fileIgnoreHit (some ip) := by
      simpa [fileIgnoreHit] using hip
    have hsc : sortedBlocks cursor := by
      rw [horig] at hsortb
      exact (List.pairwise_append.mp hsortb).2.1
    have hucur : (cursor.filter (fun b => decide (overlaps b s))).length ≤ 1 := by
      have hu := huniq s (List.mem_cons_self s ss)
      rw [horig, List.filter_append, List.length_append] at hu
      omega
    obtain ⟨⟨trim?, inc, ig⟩, hscan⟩ := scanStmt_some_ok ip s cursor
    have hinc : inc = overlapSum s cursor :=
      scanStmt_inc ip s cursor trim? inc ig hsc hucur hscan
    have hsum : overlapSum s orig = overlapSum s cursor := by
      rw [horig]
      unfold overlapSum
      rw [List.filter_append]
      have hfil : dropped.filter (fun b => decide (overlaps b s)) = [] := by
        rw [List.filter_eq_nil_iff]
        intro b hb
        simpa using not_overlaps_of_beforeStmt (hdrop b hb s (List.mem_cons_self s ss))
      rw [hfil]
      simp
    have hs_le : ∀ s' ∈ ss, stmtLe s s' := (List.pairwise_cons.mp hsorts).1
    have hsorts' : sortedStmts ss := (List.pairwise_cons.mp hsorts).2
    cases trim? with
    | none =>
      obtain ⟨rs, hrs, hall⟩ := ih orig dropped cursor horig
        (fun b hb s' hs' => hdrop b hb s' (List.mem_cons_of_mem s hs'))
        hsortb hsorts' (fun s' hs' => huniq s' (List.mem_cons_of_mem s hs'))
      have hres : convertStatements (some ip) change (s :: ss) cursor =
          .ok ({ startLine := s.startLine, endLine := s.endLine, reached := 0 + inc,
                 mode := if ig then Mode.Ignore else Mode.Keep,
                 state := findState s change } :: rs) := by
        simp only [convertStatements, if_neg hfi, hscan]
        simp [hrs]
      refine ⟨_, hres, List.Forall₂.cons ?_ hall⟩
      show (0 : Int) + inc = overlapSum s orig
      omega
    | some t =>
      obtain ⟨d, hd, hdb⟩ := scanStmt_trim (some ip) s cursor t inc ig hscan
      have horig' : orig = (dropped ++ d) ++ t := by
        rw [horig, hd, List.append_assoc]
      have hdrop' : ∀ b ∈ dropped ++ d, ∀ s' ∈ ss, beforeStmt b s' := by
        intro b hb s' hs'
        rcases List.mem_append.mp hb with hb | hb
        · exact hdrop b hb s' (List.mem_cons_of_mem s hs')
        · exact beforeStmt_mono (hdb b hb) (hs_le s' hs')
      obtain ⟨rs, hrs, hall⟩ := ih orig (dropped ++ d) t horig' hdrop'
        hsortb hsorts' (fun s' hs' => huniq s' (List.mem_cons_of_mem s hs'))
      have hres : convertStatements (some ip) change (s :: ss) cursor =
          .ok ({ startLine := s.startLine, endLine := s.endLine, reached := 0 + inc,
                 mode := if ig then Mode.Ignore else Mode.Keep,
                 state := findState s change } :: rs) := by
        simp only [convertStatements, if_neg hfi, hscan]
        simp [hrs]
      refine ⟨_, hres, List.Forall₂.cons ?_ hall⟩
      show (0 : Int) + inc = overlapSum s orig
      omega

theorem convertStatements_none_no_overlap (change : Option Change) :
    ∀ (stmts : List StmtE) (orig dropped cursor : List ProfileBlock)
      (rs : List StatementR),
      orig = dropped ++ cursor →
      (∀ b ∈ dropped, ∀ s ∈ stmts, beforeStmt b s) →
      sortedBlocks orig → sortedStmts stmts →
      convertStatements none change stmts cursor = .ok rs →
      ∀ s ∈ stmts, ∀ b ∈ orig, ¬ overlaps b s := by
  intro stmts
  induction stmts with
  | nil =>
    intro orig dropped cursor rs _ _ _ _ _ s hs
    simp at hs
  | cons s ss ih =>
    intro orig dropped cursor rs horig hdrop hsortb hsorts hok
    have hfi : ¬ fileIgnoreHit none := by simp [fileIgnoreHit]
    have hsc : sortedBlocks cursor := by
      rw [horig] at hsortb
      exact (List.pairwise_append.mp hsortb).2.1
    have hs_le : ∀ s' ∈ ss, stmtLe s s' := (List.pairwise_cons.mp hsorts).1
    have hsorts' : sortedStmts ss := (List.pairwise_cons.mp hsorts).2
    simp only [convertStatements, if_neg hfi] at hok
    cases hscan : scanStmt none s cursor with
    | error e => rw [hscan] at hok; simp at hok
    | ok out =>
      obtain ⟨trim?, inc, ig⟩ := out
      rw [hscan] at hok
      simp only [] at hok
      cases hok2 : convertStatements none change ss (trim?.getD cursor) with
      | error e => rw [hok2] at hok; simp at hok
      | ok rest =>
        rw [hok2] at hok
        have hcur_no : ∀ b ∈ cursor, ¬ overlaps b s :=
          scanStmt_none_no_overlap s cursor (trim?, inc, ig) hsc hscan
        have hthis : ∀ b ∈ orig, ¬ overlaps b s := by
          intro b hb
          rw [horig] at hb
          rcases List.mem_append.mp hb with hb | hb
          · exact not_overlaps_of_beforeStmt (hdrop b hb s (List.mem_cons_self s ss))
          · exact hcur_no b hb
        have hrest : ∀ s' ∈ ss, ∀ b ∈ orig, ¬ overlaps b s' := by
          cases trim? with
          | none =>
            exact ih orig dropped cursor rest horig
              (fun b hb s' hs' => hdrop b hb s' (List.mem_cons_of_mem s hs'))
              hsortb hsorts' hok2
          | some t =>
            obtain ⟨d, hd, hdb⟩ := scanStmt_trim none s cursor t inc ig hscan
            have horig' : orig = (dropped ++ d) ++ t := by
              rw [horig, hd, List.append_assoc]
            exact ih orig (dropped ++ d) t rest horig'
              (fun b hb s' hs' => by
                rcases List.mem_append.mp hb with hb | hb
                · exact hdrop b hb s' (List.mem_cons_of_mem s hs')
                · exact beforeStmt_mono (hdb b hb) (hs_le s' hs'))
              hsortb hsorts' hok2
        intro s' hs' b hb
        rcases List.mem_cons.mp hs' with rfl | hs'
        · exact hthis b hb
        · exact hrest s' hs' b hb

/-! ### Claims C1, C3, C9: the reconciliation loop -/

/-- C1 (amended).  The claim asserts that after reconciliation every
statement's `reached` equals the sum of `Count` over all profile blocks
overlapping it, with accumulation not stopping after the first
overlapping block.  The code stops: the loop at parser.go line 165
breaks immediately after adding the first overlapping block's count, so
the sum equality holds exactly in the regime where each statement
overlaps at most one block (with statements and blocks sorted by start
position, as the extractor and the profile format guarantee); this is
what this theorem proves.  The accompanying counterexample shows a
statement overlapping two blocks whose reached count is the first count
only, not the sum. -/
theorem reconcile_sum_when_overlaps_unique (ip : IgnoreProfile)
    (change : Option Change) (stmts : List StmtE) (blocks : List ProfileBlock)
    (hip : ip.typ ≠ IgnoreType.FILE_IGNORE)
    (hsorts : sortedStmts stmts) (hsortb : sortedBlocks blocks)
    (huniq : ∀ s ∈ stmts, (blocks.filter (fun b => decide (overlaps b s))).length ≤ 1) :
    ∃ rs, convertStatements (some ip) change stmts blocks = .ok rs ∧
      List.Forall₂ (fun s r => r.reached = overlapSum s blocks) stmts rs :=
  convertStatements_sum_aux ip hip change stmts blocks [] blocks rfl
    (by simp) hsortb hsorts huniq

theorem reconcile_sum_when_overlaps_unique_witness :
    ∃ rs, convertStatements (some { typ := IgnoreType.BLOCK_IGNORE, IgnoreBlocks := [] })
      none
      [{ startLine := 2, startCol := 1, endLine := 2, endCol := 20 }]
      [{ startLine := 1, startCol := 1, endLine := 3, endCol := 1, numStmt := 1, count := 5 }] =
      .ok rs ∧
      List.Forall₂ (fun s r => r.reached = overlapSum s
        [{ startLine := 1, startCol := 1, endLine := 3, endCol := 1, numStmt := 1, count := 5 }])
        [{ startLine := 2, startCol := 1, endLine := 2, endCol := 20 }] rs :=
  reconcile_sum_when_overlaps_unique
    { typ := IgnoreType.BLOCK_IGNORE, IgnoreBlocks := [] } none
    [{ startLine := 2, startCol := 1, endLine := 2, endCol := 20 }]
    [{ startLine := 1, startCol := 1, endLine := 3, endCol := 1, numStmt := 1, count := 5 }]
    (by decide) (by simp [sortedStmts]) (by simp [sortedBlocks]) (by decide)

/-- C1 counterexample.  One statement (lines 1-10) overlapped by two
sorted blocks with counts 3 and 4: the sum over overlapping blocks is 7,
but the code's reconciliation yields `reached = 3` — the count of the
first overlapping block only — because the inner loop breaks after the
first overlap.  Both lists satisfy the sortedness invariants, so the
discrepancy is not an artifact of malformed input. -/
theorem reconcile_multi_overlap_counterexample :
    convertStatements (some { typ := IgnoreType.BLOCK_IGNORE, IgnoreBlocks := [] }) none
      [{ startLine := 1, startCol := 1, endLine := 10, endCol := 100 }]
      [{ startLine := 1, startCol := 1, endLine := 2, endCol := 1, numStmt := 1, count := 3 },
       { startLine := 3, startCol := 1, endLine := 4, endCol := 1, numStmt := 1, count := 4 }] =
      .ok [{ startLine := 1, endLine := 10, reached := 3, mode := Mode.Keep,
             state := State.Original }]
    ∧ overlapSum { startLine := 1, startCol := 1, endLine := 10, endCol := 100 }
      [{ startLine := 1, startCol := 1, endLine := 2, endCol := 1, numStmt := 1, count := 3 },
       { startLine := 3, startCol := 1, endLine := 4, endCol := 1, numStmt := 1, count := 4 }] = 7
    ∧ sortedStmts [{ startLine := 1, startCol := 1, endLine := 10, endCol := 100 }]
    ∧ sortedBlocks
      [{ startLine := 1, startCol := 1, endLine := 2, endCol := 1, numStmt := 1, count := 3 },
       { startLine := 3, startCol := 1, endLine := 4, endCol := 1, numStmt := 1, count := 4 }] :=
  ⟨rfl, by decide, by simp [sortedStmts],
   by simp [sortedBlocks, List.pairwise_cons, blockLe, posLe]⟩

/-- C3.  If the file carries a file-level ignore marker (`IgnoreProfile`
of type `FILE_IGNORE`), every statement of the file ends with
`Mode = Ignore` and `reached = 1`, whatever the profile blocks are: the
result is a pure map over the statements that never consults `blocks`,
i.e. block matching is skipped entirely (parser.go lines 140-145). -/
theorem file_ignore_dominance (ip : IgnoreProfile) (change : Option Change)
    (hfi : ip.typ = IgnoreType.FILE_IGNORE) :
    ∀ (stmts : List StmtE) (blocks : List ProfileBlock),
      convertStatements (some ip) change stmts blocks =
        .ok (stmts.map (fun s =>
          { startLine := s.startLine, endLine := s.endLine, reached := 1,
            mode := Mode.Ignore, state := findState s change })) := by
  intro stmts
  induction stmts with
  | nil => intro blocks; rfl
  | cons s ss ih =>
    intro blocks
    have h : fileIgnoreHit (some ip) := by simp [fileIgnoreHit, hfi]
    simp [convertStatements, h, ih blocks]

theorem file_ignore_dominance_witness :
    convertStatements (some { typ := IgnoreType.FILE_IGNORE, IgnoreBlocks := [] }) none
      [{ startLine := 2, startCol := 1, endLine := 3, endCol := 5 }]
      [{ startLine := 1, startCol := 1, endLine := 9, endCol := 9, numStmt := 1, count := 7 }] =
      .ok [{ startLine := 2, endLine := 3, reached := 1, mode := Mode.Ignore,
             state := State.Original }] := by
  have h := file_ignore_dominance
    { typ := IgnoreType.FILE_IGNORE, IgnoreBlocks := [] } none rfl
    [{ startLine := 2, startCol := 1, endLine := 3, endCol := 5 }]
    [{ startLine := 1, startCol := 1, endLine := 9, endCol := 9, numStmt := 1, count := 7 }]
  simpa using h

/-- C9.  The nil check at parser.go line 140 guards only the file-ignore
branch, not the later `ignoreProfile.IgnoreBlocks` access at line 160:
with a nil ignore profile the reconciliation dereferences nil (modelled
`Except.error ()`) as soon as any profile block overlaps any statement
(first conjunct, under the sortedness invariants of both inputs), and
with any non-nil ignore profile that access is safe and the loop always
completes (second conjunct). -/
theorem nil_ignore_profile_deref :
    (∀ (change : Option Change) (stmts : List StmtE) (blocks : List ProfileBlock),
      sortedStmts stmts → sortedBlocks blocks →
      (∃ s ∈ stmts, ∃ b ∈ blocks, overlaps b s) →
      convertStatements none change stmts blocks = .error ())
    ∧ (∀ (ip : IgnoreProfile) (change : Option Change) (stmts : List StmtE)
        (blocks : List ProfileBlock),
        ∃ rs, convertStatements (some ip) change stmts blocks = .ok rs) := by
  constructor
  · rintro change stmts blocks hss hsb ⟨s, hs, b, hb, hov⟩
    cases hres : convertStatements none change stmts blocks with
    | error e => cases e; rfl
    | ok rs =>
      exact absurd hov (convertStatements_none_no_overlap change stmts blocks [] blocks
        rs rfl (by simp) hsb hss hres s hs b hb)
  · exact fun ip change stmts blocks => convertStatements_some_ok ip change stmts blocks

theorem nil_ignore_profile_deref_witness :
    convertStatements none none
      [{ startLine := 1, startCol := 1, endLine := 2, endCol := 10 }]
      [{ startLine := 1, startCol := 1, endLine := 1, endCol := 5, numStmt := 1, count := 1 }] =
      .error ()
    ∧ ∃ rs, convertStatements
        (some { typ := IgnoreType.BLOCK_IGNORE, IgnoreBlocks := [] }) none
        [{ startLine := 1, startCol := 1, endLine := 2, endCol := 10 }]
        [{ startLine := 1, startCol := 1, endLine := 1, endCol := 5, numStmt := 1, count := 1 }] =
        .ok rs :=
  ⟨nil_ignore_profile_deref.1 none
    [{ startLine := 1, startCol := 1, endLine := 2, endCol := 10 }]
    [{ startLine := 1, startCol := 1, endLine := 1, endCol := 5, numStmt := 1, count := 1 }]
    (by simp [sortedStmts]) (by simp [sortedBlocks])
    ⟨{ startLine := 1, startCol := 1, endLine := 2, endCol := 10 }, by simp,
     { startLine := 1, startCol := 1, endLine := 1, endCol := 5, numStmt := 1, count := 1 },
     by simp, by decide⟩,
   nil_ignore_profile_deref.2 { typ := IgnoreType.BLOCK_IGNORE, IgnoreBlocks := [] } none
    [{ startLine := 1, startCol := 1, endLine := 2, endCol := 10 }]
    [{ startLine := 1, startCol := 1, endLine := 1, endCol := 5, numStmt := 1, count := 1 }]⟩

/-! ### Claims C4 and C8: diff correlation and path matching -/

/-- C4.  For every statement extent and every possibly-absent change,
`findState` yields `Changed` iff some section `[StartLine, EndLine]` of
the change shares at least one line number with the statement's own
`[startLine, endLine]`; with no change (nil) the result is `Original`
(parser.go lines 375-389). -/
theorem change_classification (stmt : StmtE) :
    (∀ c : Change, (findState stmt (some c) = State.Changed ↔
      ∃ sec ∈ c.Sections, ∃ i, sec.StartLine ≤ i ∧ i ≤ sec.EndLine ∧
        stmt.startLine ≤ i ∧ i ≤ stmt.endLine))
    ∧ findState stmt none = State.Original := by
  constructor
  · intro c
    simp only [findState]
    split
    next h =>
      simp only [List.any_eq_true, Bool.and_eq_true, decide_eq_true_eq] at h
      obtain ⟨sec, hsec, i, hi, h1, h2⟩ := h
      rw [List.mem_range'_1] at hi
      exact iff_of_true rfl ⟨sec, hsec, i, by omega, by omega, by omega, by omega⟩
    next h =>
      refine iff_of_false (by simp) ?_
      rintro ⟨sec, hsec, i, h1, h2, h3, h4⟩
      apply h
      simp only [List.any_eq_true, Bool.and_eq_true, decide_eq_true_eq]
      exact ⟨sec, hsec, i, List.mem_range'_1.mpr ⟨h1, by omega⟩, h3, by omega⟩
  · rfl

theorem change_classification_witness :
    findState { startLine := 3, startCol := 1, endLine := 4, endCol := 10 }
      (some { FileName := "a.go", Sections := [{ StartLine := 4, EndLine := 6 }] }) =
      State.Changed
    ∧ findState { startLine := 3, startCol := 1, endLine := 4, endCol := 10 } none =
      State.Original :=
  ⟨((change_classification { startLine := 3, startCol := 1, endLine := 4, endCol := 10 }).1
      { FileName := "a.go", Sections := [{ StartLine := 4, EndLine := 6 }] }).mpr
      ⟨{ StartLine := 4, EndLine := 6 }, by simp, 4, by decide, by decide, by decide, by decide⟩,
   (change_classification { startLine := 3, startCol := 1, endLine := 4, endCol := 10 }).2⟩

/-- C8.  `InFolder(parentDir, filepath)` is true iff `filepath` is a
suffix of `parentDir` (`strings.HasSuffix`, parser.go lines 401-404),
with the spec's two concrete instances, and `findChange` associates a
change with a profile exactly when the change's recorded file path is a
suffix of the profile's file path (and any associated change satisfies
that suffix relation), parser.go lines 391-399. -/
theorem in_folder_suffix :
    (∀ parentDir fp : String, InFolder parentDir fp = true ↔ fp.data <:+ parentDir.data)
    ∧ InFolder "/repo/pkg/a.go" "pkg/a.go" = true
    ∧ InFolder "/repo/pkg/a.go" "pkg/b.go" = false
    ∧ (∀ (pe : ProfileEntry) (changes : List Change),
        (findChange pe changes).isSome =
          changes.any (fun c => InFolder pe.FileName c.FileName))
    ∧ (∀ (pe : ProfileEntry) (changes : List Change) (c : Change),
        findChange pe changes = some c → InFolder pe.FileName c.FileName = true) := by
  refine ⟨?_, ?_, ?_, ?_, ?_⟩
  · intro p f
    exact List.isSuffixOf_iff_suffix
  · rfl
  · rfl
  · intro pe changes
    induction changes with
    | nil => rfl
    | cons c cs ih =>
      cases h : InFolder pe.FileName c.FileName with
      | true => simp [findChange, h]
      | false => simp [findChange, h, ih]
  · intro pe changes c
    induction changes with
    | nil => intro h; exact absurd h (by simp [findChange])
    | cons c0 cs ih =>
      intro h
      cases h0 : InFolder pe.FileName c0.FileName with
      | true =>
        have heq : some c0 = some c := by simpa [findChange, h0] using h
        cases heq
        exact h0
      | false =>
        apply ih
        simpa [findChange, h0] using h

theorem in_folder_suffix_witness :
    InFolder "/repo/pkg/a.go" "pkg/a.go" = true :=
  in_folder_suffix.2.2.2.2 { FileName := "/repo/pkg/a.go", Blocks := [] }
    [{ FileName := "pkg/a.go", Sections := [] }]
    { FileName := "pkg/a.go", Sections := [] } rfl

/-! ### Claim C7: error propagation in `Parse` -/

/-- C7 (amended).  Whenever a consumed operation fails during `Parse`,
the run aborts with the first error and no model (structurally: the
`fail` outcome carries no packages).  The error is wrapped with the
stage tag and the underlying error kind is preserved for the
profile-decoding, file-resolution and function-extraction stages —
`carries` is invariant under `wrapf` — but NOT for the
annotation-parsing stage: parser.go line 92 builds
`fmt.Errorf("parse ignore profile")` without `%w`, so the resulting
error (further wrapped as `"covert cover profile"`) carries no
underlying kind at all.  The claim as stated, which asserts cause
preservation for all four stages including annotation parsing, is
refuted by the accompanying counterexample. -/
theorem parse_stage_error_wrapping :
    (∀ (t : String) (e : GoError) (k : ErrKind), carries (.wrapf t e) k = carries e k)
    ∧ (∀ (env : Env) (f : String) (fs : List String) (changes : List Change) (e : GoError),
        env.parseProfiles f = .error e →
        ParseM env (f :: fs) changes = .fail (.wrapf "parse cover profile" e))
    ∧ (∀ (env : Env) (f : String) (fs : List String) (changes : List Change)
        (p : ProfileEntry) (ps : List ProfileEntry) (e : GoError),
        env.parseProfiles f = .ok (p :: ps) →
        env.buildImport p.FileName = .error e →
        ParseM env (f :: fs) changes =
          .fail (.wrapf "covert cover profile" (.wrapf "find file" (.wrapf "cant find" e))))
    ∧ (∀ (env : Env) (f : String) (fs : List String) (changes : List Change)
        (p : ProfileEntry) (ps : List ProfileEntry) (file pkgpath : String) (e : GoError),
        env.parseProfiles f = .ok (p :: ps) →
        env.buildImport p.FileName = .ok (file, pkgpath) →
        env.parseIgnoreProfiles file p = .error e →
        ParseM env (f :: fs) changes =
          .fail (.wrapf "covert cover profile" (.msgf "parse ignore profile")))
    ∧ (∀ (env : Env) (f : String) (fs : List String) (changes : List Change)
        (p : ProfileEntry) (ps : List ProfileEntry) (file pkgpath : String)
        (ign : Option IgnoreProfile) (e : GoError),
        env.parseProfiles f = .ok (p :: ps) →
        env.buildImport p.FileName = .ok (file, pkgpath) →
        env.parseIgnoreProfiles file p = .ok ign →
        env.findFuncs file = .error e →
        ParseM env (f :: fs) changes =
          .fail (.wrapf "covert cover profile" (.wrapf "find Functions" e)))
    ∧ (∀ (k : ErrKind),
        carries (.wrapf "covert cover profile" (.msgf "parse ignore profile")) k = false) := by
  refine ⟨?_, ?_, ?_, ?_, ?_, ?_⟩
  · intro t e k; rfl
  · intro env f fs changes e h
    simp [ParseM, parseLoop, h]
  · intro env f fs changes p ps e h1 h2
    simp [ParseM, parseLoop, h1, processEntries, convertProfileM, findFileM, h2]
  · intro env f fs changes p ps file pkgpath e h1 h2 h3
    simp [ParseM, parseLoop, h1, processEntries, convertProfileM, findFileM, h2, h3]
  · intro env f fs changes p ps file pkgpath ign e h1 h2 h3 h4
    simp [ParseM, parseLoop, h1, processEntries, convertProfileM, findFileM, h2, h3, h4]
  · intro k; rfl

theorem parse_stage_error_wrapping_witness :
    ParseM envProfileFail ["cover.out"] [] =
      .fail (.wrapf "parse cover profile" (.base ErrKind.ProfileFormatError))
    ∧ ParseM envResolveFail ["cover.out"] [] =
      .fail (.wrapf "covert cover profile" (.wrapf "find file"
        (.wrapf "cant find" (.base ErrKind.ResolutionError))))
    ∧ ParseM envFuncsFail ["cover.out"] [] =
      .fail (.wrapf "covert cover profile" (.wrapf "find Functions"
        (.base ErrKind.ParseError))) :=
  ⟨parse_stage_error_wrapping.2.1 envProfileFail "cover.out" [] []
     (.base ErrKind.ProfileFormatError) rfl,
   parse_stage_error_wrapping.2.2.1 envResolveFail "cover.out" [] []
     profEntry0 [] (.base ErrKind.ResolutionError) rfl rfl,
   parse_stage_error_wrapping.2.2.2.2.1 envFuncsFail "cover.out" [] []
     profEntry0 [] "/src/repo/pkg/a.go" "repo/pkg" none
     (.base ErrKind.ParseError) rfl rfl rfl rfl⟩

/-- C7 counterexample.  With an environment whose annotation parser
fails with an `AnnotationError`, `Parse` aborts with
`"covert cover profile: parse ignore profile"`, and that wrapped error
does not carry the underlying `AnnotationError` (or anything else):
parser.go line 92 replaced the error instead of wrapping it, refuting
the claim that the wrapped error still carries the original error for
the annotation-parsing stage. -/
theorem parse_annotation_error_dropped :
    ParseM envAnnotationFail ["cover.out"] [] =
      .fail (.wrapf "covert cover profile" (.msgf "parse ignore profile"))
    ∧ carries (.wrapf "covert cover profile" (.msgf "parse ignore profile"))
        ErrKind.AnnotationError = false
    ∧ envAnnotationFail.parseIgnoreProfiles "/src/repo/pkg/a.go" profEntry0 =
        .error (.base ErrKind.AnnotationError) :=
  ⟨rfl, rfl, rfl⟩

/-! ### Helper lemmas about the statement extractor -/

theorem wf_pos_lt_end : ∀ s : GoStmt, wfB s = true → posS s < endS s := by
  intro s hs
  cases s with
  | simple sp ep =>
    simp only [wfB, decide_eq_true_eq] at hs
    simp only [posS, endS]
    omega
  | block lb l ep =>
    simp only [wfB, Bool.and_eq_true, decide_eq_true_eq, and_assoc] at hs
    simp only [posS, endS]
    omega
  | caseClause sp body ep =>
    simp only [wfB, Bool.and_eq_true, decide_eq_true_eq, and_assoc] at hs
    simp only [posS, endS]
    omega
  | commClause sp body ep =>
    simp only [wfB, Bool.and_eq_true, decide_eq_true_eq, and_assoc] at hs
    simp only [posS, endS]
    omega
  | forS sp ini post body ep =>
    simp only [wfB, Bool.and_eq_true, decide_eq_true_eq, and_assoc] at hs
    simp only [posS, endS]
    omega
  | ifS sp ini body els ep =>
    cases els <;>
      (simp only [wfB, Bool.and_eq_true, decide_eq_true_eq, and_assoc] at hs;
       simp only [posS, endS]; omega)
  | labeled sp inner ep =>
    simp only [wfB, Bool.and_eq_true, decide_eq_true_eq, and_assoc] at hs
    simp only [posS, endS]
    omega
  | rangeS sp body ep =>
    simp only [wfB, Bool.and_eq_true, decide_eq_true_eq, and_assoc] at hs
    simp only [posS, endS]
    omega
  | selectS sp body ep =>
    simp only [wfB, Bool.and_eq_true, decide_eq_true_eq, and_assoc] at hs
    simp only [posS, endS]
    omega
  | switchS sp ini body ep =>
    simp only [wfB, Bool.and_eq_true, decide_eq_true_eq, and_assoc] at hs
    simp only [posS, endS]
    omega
  | typeSwitchS sp ini assign body ep =>
    simp only [wfB, Bool.and_eq_true, decide_eq_true_eq, and_assoc] at hs
    simp only [posS, endS]
    omega

theorem wfSeq_le : ∀ (l : List GoStmt) (lo hi : Nat),
    wfSeq lo l hi = true → lo ≤ hi := by
  intro l
  induction l with
  | nil => intro lo hi h; simpa [wfSeq] using h
  | cons c cs ih =>
    intro lo hi h
    simp only [wfSeq, Bool.and_eq_true, decide_eq_true_eq, and_assoc] at h
    obtain ⟨h1, h2, h3⟩ := h
    have h4 := wf_pos_lt_end c h2
    have h5 := ih (endS c) hi h3
    omega

theorem visitStmt_simple_nil (s : GoStmt) (h : isSimpleStmt s = true) :
    visitStmt s = [] := by
  cases s
  case simple sp ep => rfl
  all_goals simp [isSimpleStmt] at h

theorem visitOpt_simple_nil (o : Option GoStmt) (h : optSimple o = true) :
    visitOpt o = [] := by
  cases o with
  | none => rfl
  | some s =>
    simp only [optSimple] at h
    simp [visitOpt, visitStmt_simple_nil s h]

theorem pairwise_lt_append (B : Nat) {l1 l2 : List SExtent}
    (h1 : List.Pairwise (fun a b => a.s < b.s) l1)
    (h2 : List.Pairwise (fun a b => a.s < b.s) l2)
    (hb1 : ∀ x ∈ l1, x.s < B) (hb2 : ∀ x ∈ l2, B ≤ x.s) :
    List.Pairwise (fun a b => a.s < b.s) (l1 ++ l2) := by
  rw [List.pairwise_append]
  exact ⟨h1, h2, fun a ha b hb => lt_of_lt_of_le (hb1 a ha) (hb2 b hb)⟩

/-- Master invariant of the extractor: on a well-formed tree, every
recorded extent starts strictly inside the visited statement's span, and
the recorded list is strictly increasing in start offset.  Proved by the
joint functional induction of `visitStmt` / `visitElse` / `visitList` /
`visitOpt`. -/
theorem visit_bounds :
    ∀ s : GoStmt, wfB s = true →
      (∀ x ∈ visitStmt s, posS s < x.s ∧ x.s < endS s) ∧
      List.Pairwise (fun a b => a.s < b.s) (visitStmt s) := by
  refine visitStmt.induct
    (fun s => wfB s = true →
      (∀ x ∈ visitStmt s, posS s < x.s ∧ x.s < endS s) ∧
      List.Pairwise (fun a b => a.s < b.s) (visitStmt s))
    (fun els => ∀ es : GoStmt, els = some es → wfB es = true →
      (∀ x ∈ visitElse els, posS es ≤ x.s ∧ x.s < endS es) ∧
      List.Pairwise (fun a b => a.s < b.s) (visitElse els))
    (fun l => ∀ lo hi : Nat, wfSeq lo l hi = true →
      (∀ x ∈ visitList l, lo < x.s ∧ x.s < hi) ∧
      List.Pairwise (fun a b => a.s < b.s) (visitList l))
    (fun o => optSimple o = true → visitOpt o = [])
    ?_ ?_ ?_ ?_ ?_ ?_ ?_ ?_ ?_ ?_ ?_ ?_ ?_ ?_ ?_ ?_ ?_ ?_ ?_
  -- simple
  · intro sp ep _
    exact ⟨by simp [visitStmt], by simp [visitStmt]⟩
  -- block
  · intro lb l ep ihl h
    simp only [wfB, Bool.and_eq_true, decide_eq_true_eq, and_assoc] at h
    obtain ⟨hlt, hseq⟩ := h
    obtain ⟨hb, hp⟩ := ihl lb ep hseq
    exact ⟨by simpa [visitStmt, posS, endS] using hb,
           by simpa [visitStmt] using hp⟩
  -- caseClause
  · intro sp body ep ihl h
    simp only [wfB, Bool.and_eq_true, decide_eq_true_eq, and_assoc] at h
    obtain ⟨hlt, hseq⟩ := h
    obtain ⟨hb, hp⟩ := ihl sp ep hseq
    exact ⟨by simpa [visitStmt, posS, endS] using hb,
           by simpa [visitStmt] using hp⟩
  -- commClause
  · intro sp body ep ihl h
    simp only [wfB, Bool.and_eq_true, decide_eq_true_eq, and_assoc] at h
    obtain ⟨hlt, hseq⟩ := h
    obtain ⟨hb, hp⟩ := ihl sp ep hseq
    exact ⟨by simpa [visitStmt, posS, endS] using hb,
           by simpa [visitStmt] using hp⟩
  -- forS
  · intro sp ini post body ep ih_ini ih_post ih_body h
    simp only [wfB, Bool.and_eq_true, decide_eq_true_eq, and_assoc] at h
    obtain ⟨h1, h2, h3, h4, h5, h6⟩ := h
    have hi := ih_ini h2
    have hp := ih_post h3
    obtain ⟨hb, hpw⟩ := ih_body h4
    constructor
    · intro x hx
      simp only [visitStmt, hi, hp, List.nil_append] at hx
      have := hb x hx
      simp only [posS, endS]
      omega
    · simpa [visitStmt, hi, hp] using hpw
  -- ifS
  · intro sp ini body els ep ih_ini ih_body ih_els h
    cases els with
    | none =>
      simp only [wfB, Bool.and_eq_true, decide_eq_true_eq, and_assoc] at h
      obtain ⟨h1, h2, h3, h4, h5⟩ := h
      have hini := ih_ini h2
      obtain ⟨hb, hbpw⟩ := ih_body h3
      constructor
      · intro x hx
        simp only [visitStmt, hini, visitElse, List.nil_append, List.append_nil] at hx
        have := hb x hx
        simp only [posS, endS]
        omega
      · simpa [visitStmt, hini, visitElse] using hbpw
    | some es =>
      simp only [wfB, Bool.and_eq_true, decide_eq_true_eq, and_assoc] at h
      obtain ⟨h1, h2, h3, h4, h6, h7, h8⟩ := h
      have hini := ih_ini h2
      obtain ⟨hb, hbpw⟩ := ih_body h3
      have hblt := wf_pos_lt_end body h3
      obtain ⟨he, hepw⟩ := ih_els es rfl h7
      have heslt := wf_pos_lt_end es h7
      constructor
      · intro x hx
        simp only [visitStmt, hini, List.nil_append, List.mem_append] at hx
        simp only [posS, endS]
        rcases hx with hx | hx
        · have := hb x hx; omega
        · have := he x hx; omega
      · simp only [visitStmt, hini, List.nil_append]
        refine pairwise_lt_append (posS es) hbpw hepw ?_ ?_
        · intro x hx; have := hb x hx; omega
        · intro x hx; exact (he x hx).1
  -- labeled
  · intro sp inner ep ih h
    simp only [wfB, Bool.and_eq_true, decide_eq_true_eq, and_assoc] at h
    obtain ⟨h1, h2, h3, h4⟩ := h
    obtain ⟨hb, hpw⟩ := ih h2
    constructor
    · intro x hx
      simp only [visitStmt] at hx
      have := hb x hx
      simp only [posS, endS]
      omega
    · simpa [visitStmt] using hpw
  -- rangeS
  · intro sp body ep ih h
    simp only [wfB, Bool.and_eq_true, decide_eq_true_eq, and_assoc] at h
    obtain ⟨h1, h2, h3, h4⟩ := h
    obtain ⟨hb, hpw⟩ := ih h2
    constructor
    · intro x hx
      simp only [visitStmt] at hx
      have := hb x hx
      simp only [posS, endS]
      omega
    · simpa [visitStmt] using hpw
  -- selectS
  · intro sp body ep ih h
    simp only [wfB, Bool.and_eq_true, decide_eq_true_eq, and_assoc] at h
    obtain ⟨h1, h2, h3, h4⟩ := h
    obtain ⟨hb, hpw⟩ := ih h2
    constructor
    · intro x hx
      simp only [visitStmt] at hx
      have := hb x hx
      simp only [posS, endS]
      omega
    · simpa [visitStmt] using hpw
  -- switchS
  · intro sp ini body ep ih_ini ih_body h
    simp only [wfB, Bool.and_eq_true, decide_eq_true_eq, and_assoc] at h
    obtain ⟨h1, h2, h3, h4, h5⟩ := h
    have hini := ih_ini h2
    obtain ⟨hb, hpw⟩ := ih_body h3
    constructor
    · intro x hx
      simp only [visitStmt, hini, List.nil_append] at hx
      have := hb x hx
      simp only [posS, endS]
      omega
    · simpa [visitStmt, hini] using hpw
  -- typeSwitchS
  · intro sp ini assign body ep ih_ini ih_assign ih_body h
    simp only [wfB, Bool.and_eq_true, decide_eq_true_eq, and_assoc] at h
    obtain ⟨h1, h2, h3, h4, h5, h6⟩ := h
    have hini := ih_ini h2
    have hasg := visitStmt_simple_nil assign h3
    obtain ⟨hb, hpw⟩ := ih_body h4
    constructor
    · intro x hx
      simp only [visitStmt, hini, hasg, List.nil_append] at hx
      have := hb x hx
      simp only [posS, endS]
      omega
    · simpa [visitStmt, hini, hasg] using hpw
  -- list nil
  · intro lo hi _
    exact ⟨by simp [visitList], by simp [visitList]⟩
  -- list cons
  · intro c cs ih_c ih_cs lo hi h
    simp only [wfSeq, Bool.and_eq_true, decide_eq_true_eq, and_assoc] at h
    obtain ⟨h1, h2, h3⟩ := h
    obtain ⟨hcb, hcpw⟩ := ih_c h2
    obtain ⟨hlb, hlpw⟩ := ih_cs (endS c) hi h3
    have hce := wf_pos_lt_end c h2
    have hhi := wfSeq_le cs (endS c) hi h3
    by_cases hsk : skipRecord c
    · constructor
      · intro x hx
        simp only [visitList, if_pos hsk, List.nil_append, List.mem_append] at hx
        rcases hx with hx | hx
        · have := hcb x hx; omega
        · have := hlb x hx; omega
      · simp only [visitList, if_pos hsk, List.nil_append]
        refine pairwise_lt_append (endS c) hcpw hlpw ?_ ?_
        · intro x hx; exact (hcb x hx).2
        · intro x hx; exact le_of_lt (hlb x hx).1
    · constructor
      · intro x hx
        simp only [visitList, if_neg hsk, List.mem_append, List.mem_singleton] at hx
        rcases hx with (rfl | hx) | hx
        · exact ⟨h1, show posS c < hi by omega⟩
        · have := hcb x hx; omega
        · have := hlb x hx; omega
      · simp only [visitList, if_neg hsk]
        refine pairwise_lt_append (endS c)
          (pairwise_lt_append (posS c + 1) (by simp) hcpw ?_ ?_) hlpw ?_ ?_
        · intro x hx
          simp only [List.mem_singleton] at hx
          subst hx
          exact Nat.lt_succ_self _
        · intro x hx
          have := (hcb x hx).1
          omega
        · intro x hx
          simp only [List.mem_append, List.mem_singleton] at hx
          rcases hx with rfl | hx
          · exact hce
          · exact (hcb x hx).2
        · intro x hx
          exact le_of_lt (hlb x hx).1
  -- else none
  · intro es h
    exact absurd h (by simp)
  -- else some-if
  · intro sp ini body els ep ih es heq hwf
    injection heq with heq
    subst heq
    obtain ⟨hb, hpw⟩ := ih hwf
    have hlt := wf_pos_lt_end (.ifS sp ini body els ep) hwf
    constructor
    · intro x hx
      simp only [visitElse, List.mem_cons] at hx
      rcases hx with rfl | hx
      · exact ⟨by simp [posS], by simpa [posS, endS] using hlt⟩
      · have := hb x hx
        simp only [posS, endS] at *
        omega
    · simp only [visitElse]
      rw [List.pairwise_cons]
      refine ⟨fun x hx => ?_, hpw⟩
      have := (hb x hx).1
      simpa [posS] using this
  -- else some-block
  · intro lb l ep ih es heq hwf
    injection heq with heq
    subst heq
    simp only [wfB, Bool.and_eq_true, decide_eq_true_eq, and_assoc] at hwf
    obtain ⟨h1, hseq⟩ := hwf
    obtain ⟨hb, hpw⟩ := ih lb ep hseq
    constructor
    · intro x hx
      simp only [visitElse] at hx
      have := hb x hx
      simp only [posS, endS]
      omega
    · simpa [visitElse] using hpw
  -- else catch-all (the source panic branch)
  · intro val hnotif hnotblock es heq hwf
    injection heq with heq
    subst heq
    cases val
    case ifS sp ini body els ep => exact absurd rfl (hnotif sp ini body els ep)
    case block lb l ep => exact absurd rfl (hnotblock lb l ep)
    all_goals exact ⟨by simp [visitElse], by simp [visitElse]⟩
  -- opt none
  · intro _
    rfl
  -- opt some
  · intro s _ h
    simp only [optSimple] at h
    simp [visitOpt, visitStmt_simple_nil s h]

theorem visitList_mem_of_mem (c : GoStmt) (hsk : skipRecord c = false) :
    ∀ l : List GoStmt, c ∈ l →
      ({ s := posS c, e := endS c } : SExtent) ∈ visitList l ∧
      ∀ x ∈ visitStmt c, x ∈ visitList l := by
  intro l
  induction l with
  | nil => intro h; simp at h
  | cons c0 cs ih =>
    intro hmem
    rcases List.mem_cons.mp hmem with rfl | hmem
    · constructor
      · simp [visitList, hsk]
      · intro x hx
        simp only [visitList, hsk, Bool.false_eq_true, if_false, List.mem_append,
          List.mem_singleton]
        exact Or.inl (Or.inr hx)
    · obtain ⟨ih1, ih2⟩ := ih hmem
      constructor
      · exact List.mem_append_right _ ih1
      · intro x hx
        exact List.mem_append_right _ (ih2 x hx)

/-! ### Claims C2, C5, C6, C10: the statement extent extractor -/

/-- C2 counterexample.  A function body containing a single `for` loop:
the extractor records the for statement's own whole span (offsets 2-14)
as a statement extent, in addition to the statements inside its body.
The claim asserts that a control construct's own span is never recorded;
the recording loop of parser.go lines 351-367 skips only block and
case/comm clause nodes, so the `for` falls into the recording default
arm. -/
theorem control_own_span_recorded_counterexample :
    visitStmt (.block 0 [.forS 2 none none (.block 7 [.simple 9 12] 14) 14] 16) =
      [{ s := 2, e := 14 }, { s := 9, e := 12 }]
    ∧ ({ s := 2, e := 14 } : SExtent) ∈
        visitStmt (.block 0 [.forS 2 none none (.block 7 [.simple 9 12] 14) 14] 16)
    ∧ posS (.forS 2 none none (.block 7 [.simple 9 12] 14) 14) = 2
    ∧ endS (.forS 2 none none (.block 7 [.simple 9 12] 14) 14) = 14
    ∧ wfB (.block 0 [.forS 2 none none (.block 7 [.simple 9 12] 14) 14] 16) = true :=
  ⟨rfl, by decide, rfl, rfl, by decide⟩

/-- C2 (amended).  When a statement that is a control construct (loop,
conditional, switch, select) occurs as a member of an exposed statement
list, the extractor records the construct's own whole span as a
statement extent — the skip list of parser.go line 354 contains only
block and case/comm clause shapes — and additionally recurses into it,
so every extent extracted from inside the construct is also part of the
surrounding function's list.  Calling the visitor directly on a simple
statement (the way `for`/`if`/`switch` initializers are visited) records
nothing. -/
theorem control_child_recording :
    (∀ (c : GoStmt) (l : List GoStmt) (lb ep : Nat), isControl c = true → c ∈ l →
      ({ s := posS c, e := endS c } : SExtent) ∈ visitStmt (.block lb l ep)
      ∧ ∀ x ∈ visitStmt c, x ∈ visitStmt (.block lb l ep))
    ∧ (∀ s0 : GoStmt, isSimpleStmt s0 = true → visitStmt s0 = []) := by
  constructor
  · intro c l lb ep hc hmem
    have hsk : skipRecord c = false := by
      cases c <;> simp [isControl] at hc <;> rfl
    have h := visitList_mem_of_mem c hsk l hmem
    simpa only [visitStmt] using h
  · exact visitStmt_simple_nil

theorem control_child_recording_witness :
    ({ s := 2, e := 14 } : SExtent) ∈
      visitStmt (.block 0 [.forS 2 none none (.block 7 [.simple 9 12] 14) 14] 16)
    ∧ ∀ x ∈ visitStmt (.forS 2 none none (.block 7 [.simple 9 12] 14) 14),
        x ∈ visitStmt (.block 0 [.forS 2 none none (.block 7 [.simple 9 12] 14) 14] 16) :=
  control_child_recording.1 (.forS 2 none none (.block 7 [.simple 9 12] 14) 14)
    [.forS 2 none none (.block 7 [.simple 9 12] 14) 14] 0 16 rfl (by simp)

/-- C5 counterexample.  Source shape `if a { } else if b { }`, embedded
with the outer `if` at offset 0, its then-block at 5-8, and the nested
`if` keyword at offset 14 (so the `else` keyword sits at 14 - 5 = 9).
The only extent recorded for the alternate starts at 14, the nested
if's own position, and no recorded extent starts at offset 9: the
`Lbrace` backup of parser.go lines 314-324 is written into the
synthesized block node but never read back when extents are recorded.
The tree is well formed, so this is not a degenerate input. -/
theorem else_if_alignment_counterexample :
    visitStmt (.ifS 0 none (.block 5 [] 8)
        (some (.ifS 14 none (.block 19 [] 22) none 22)) 22) =
      [{ s := 14, e := 22 }]
    ∧ (9 : Nat) ∉ (visitStmt (.ifS 0 none (.block 5 [] 8)
        (some (.ifS 14 none (.block 19 [] 22) none 22)) 22)).map (fun x => x.s)
    ∧ (14 : Nat) - 5 = 9
    ∧ wfB (.ifS 0 none (.block 5 [] 8)
        (some (.ifS 14 none (.block 19 [] 22) none 22)) 22) = true :=
  ⟨rfl, by decide, rfl, by decide⟩

/-- C5 (amended).  For `if ... else if ...` the synthesized block does
cause a statement extent to be recorded for the alternate — the nested
if wrapped into the synthesized block becomes a recordable list member —
but that extent starts at the nested if's own position, not at the
position of the `else` keyword (nested position backed up by
`len("else ") = 5`): the backed-up `Lbrace` of the synthesized block
(and likewise the shifted `Lbrace` of a plain else block) is never read
when extents are recorded, so no extent of the whole conditional starts
at that backed-up offset.  `hgap` states that the then-block ends at or
before the `else` keyword, which holds in any actual source layout. -/
theorem else_if_extent_not_backed_up
    (p : Nat) (ini : Option GoStmt) (body : GoStmt)
    (p2 : Nat) (ini2 : Option GoStmt) (body2 : GoStmt) (els2 : Option GoStmt)
    (q2 q : Nat)
    (hwf : wfB (.ifS p ini body (some (.ifS p2 ini2 body2 els2 q2)) q) = true)
    (hgap : endS body ≤ p2 - 5) (h5 : 5 ≤ p2) :
    (({ s := p2, e := q2 } : SExtent) ∈
      visitStmt (.ifS p ini body (some (.ifS p2 ini2 body2 els2 q2)) q))
    ∧ ∀ x ∈ visitStmt (.ifS p ini body (some (.ifS p2 ini2 body2 els2 q2)) q),
        x.s ≠ p2 - 5 := by
  have h := hwf
  simp only [wfB, Bool.and_eq_true, decide_eq_true_eq, and_assoc] at h
  obtain ⟨h1, h2, h3, h4, h6, h7, h8⟩ := h
  have hini := visitOpt_simple_nil ini h2
  obtain ⟨hb, _⟩ := visit_bounds body h3
  obtain ⟨hie, _⟩ := visit_bounds (.ifS p2 ini2 body2 els2 q2) h7
  constructor
  · simp only [visitStmt, visitElse, hini, List.nil_append]
    exact List.mem_append_right _ (List.mem_cons_self _ _)
  · intro x hx
    simp only [visitStmt, visitElse, hini, List.nil_append, List.mem_append,
      List.mem_cons] at hx
    rcases hx with hx | rfl | hx
    · have := hb x hx
      omega
    · show p2 ≠ p2 - 5
      omega
    · have hx2 : x ∈ visitStmt (.ifS p2 ini2 body2 els2 q2) := by
        simp only [visitStmt, List.mem_append]
        exact hx
      have := hie x hx2
      simp only [posS, endS] at this
      omega

theorem else_if_extent_not_backed_up_witness :
    (({ s := 14, e := 22 } : SExtent) ∈
      visitStmt (.ifS 0 none (.block 5 [] 8)
        (some (.ifS 14 none (.block 19 [] 22) none 22)) 22))
    ∧ ∀ x ∈ visitStmt (.ifS 0 none (.block 5 [] 8)
        (some (.ifS 14 none (.block 19 [] 22) none 22)) 22),
        x.s ≠ 14 - 5 :=
  else_if_extent_not_backed_up 0 none (.block 5 [] 8) 14 none (.block 19 [] 22)
    none 22 22 (by decide) (by decide) (by decide)

/-- C6.  For every function-like construct (the extractor runs on its
body, a well-formed statement tree), the extracted statement extents are
strictly ordered by start offset, i.e. they appear in source document
order, top-to-bottom, left-to-right. -/
theorem statement_extents_strictly_ordered (body : GoStmt) (h : wfB body = true) :
    List.Pairwise (fun a b => a.s < b.s) (visitStmt body) :=
  (visit_bounds body h).2

theorem statement_extents_strictly_ordered_witness :
    List.Pairwise (fun a b => a.s < b.s)
      (visitStmt (.block 0 [.simple 2 5,
        .ifS 7 none (.block 12 [.simple 14 17] 19) none 20] 22)) :=
  statement_extents_strictly_ordered
    (.block 0 [.simple 2 5, .ifS 7 none (.block 12 [.simple 14 17] 19) none 20] 22)
    (by decide)

/-- C10.  On every tree satisfying the Go grammar invariant for `Else`
fields (absent, another if, or a block — exactly what `go/parser`
produces), the visitor never reaches the
`panic("unexpected node type in if")` of parser.go line 326, so
`VisitStmt` is total on parser-produced trees. -/
theorem visit_no_panic_on_grammar_trees (s : GoStmt) (h : elseOk s = true) :
    hitsPanic s = false := by
  refine hitsPanic.induct
    (fun s => elseOk s = true → hitsPanic s = false)
    (fun els => elseShapeOk els = true → elseOkOpt els = true →
      hitsPanicElse els = false)
    (fun l => elseOkList l = true → hitsPanicList l = false)
    (fun o => elseOkOpt o = true → hitsPanicOpt o = false)
    ?_ ?_ ?_ ?_ ?_ ?_ ?_ ?_ ?_ ?_ ?_ ?_ ?_ ?_ ?_ ?_ ?_ ?_ ?_ s h
  -- simple
  · intro sp ep _
    rfl
  -- block
  · intro lb l ep ih hok
    simp only [elseOk] at hok
    simp only [hitsPanic]
    exact ih hok
  -- caseClause
  · intro sp body ep ih hok
    simp only [elseOk] at hok
    simp only [hitsPanic]
    exact ih hok
  -- commClause
  · intro sp body ep ih hok
    simp only [elseOk] at hok
    simp only [hitsPanic]
    exact ih hok
  -- forS
  · intro sp ini post body ep ih1 ih2 ih3 hok
    simp only [elseOk, Bool.and_eq_true, and_assoc] at hok
    obtain ⟨h1, h2, h3⟩ := hok
    simp [hitsPanic, ih1 h1, ih2 h2, ih3 h3]
  -- ifS
  · intro sp ini body els ep ih1 ih2 ih3 hok
    simp only [elseOk, Bool.and_eq_true, and_assoc] at hok
    obtain ⟨h1, h2, h3, h4⟩ := hok
    simp [hitsPanic, ih1 h1, ih2 h2, ih3 h3 h4]
  -- labeled
  · intro sp inner ep ih hok
    simp only [elseOk] at hok
    simp only [hitsPanic]
    exact ih hok
  -- rangeS
  · intro sp body ep ih hok
    simp only [elseOk] at hok
    simp only [hitsPanic]
    exact ih hok
  -- selectS
  · intro sp body ep ih hok
    simp only [elseOk] at hok
    simp only [hitsPanic]
    exact ih hok
  -- switchS
  · intro sp ini body ep ih1 ih2 hok
    simp only [elseOk, Bool.and_eq_true, and_assoc] at hok
    obtain ⟨h1, h2⟩ := hok
    simp [hitsPanic, ih1 h1, ih2 h2]
  -- typeSwitchS
  · intro sp ini assign body ep ih1 ih2 ih3 hok
    simp only [elseOk, Bool.and_eq_true, and_assoc] at hok
    obtain ⟨h1, h2, h3⟩ := hok
    simp [hitsPanic, ih1 h1, ih2 h2, ih3 h3]
  -- list nil
  · intro _
    rfl
  -- list cons
  · intro c cs ih1 ih2 hok
    simp only [elseOkList, Bool.and_eq_true] at hok
    simp [hitsPanicList, ih1 hok.1, ih2 hok.2]
  -- else none
  · intro _ _
    rfl
  -- else some-if
  · intro sp ini body els ep ih h1 h2
    simp only [elseOkOpt] at h2
    simp only [hitsPanicElse]
    exact ih h2
  -- else some-block
  · intro lb l ep ih h1 h2
    simp only [elseOkOpt, elseOk] at h2
    simp only [hitsPanicElse]
    exact ih h2
  -- else catch-all
  · intro val hnotif hnotblock h1 h2
    exfalso
    cases val
    case ifS sp ini body els ep => exact absurd rfl (hnotif sp ini body els ep)
    case block lb l ep => exact absurd rfl (hnotblock lb l ep)
    all_goals simp [elseShapeOk] at h1
  -- opt none
  · intro _
    rfl
  -- opt some
  · intro s ih hok
    simp only [elseOkOpt] at hok
    simp only [hitsPanicOpt]
    exact ih hok

theorem visit_no_panic_on_grammar_trees_witness :
    hitsPanic (.block 0 [.ifS 2 none (.block 7 [] 9)
      (some (.block 15 [.simple 16 19] 20)) 20] 22) = false :=
  visit_no_panic_on_grammar_trees
    (.block 0 [.ifS 2 none (.block 7 [] 9)
      (some (.block 15 [.simple 16 19] 20)) 20] 22)
    (by decide)

end GoCover
